import Mathlib

/-
Verification of the distance-vector routing entity implemented in
src/entity.py.  The embedding below translates the Python class Entity
field by field and statement by statement: machine integers are Int
(Python integers are unbounded), Python lists are Lean lists, and Python
list subscripts that can raise IndexError are modelled with Option.
-/

namespace DistVec

/-- Modelled from the spec: the file packet.py is not part of src/; only its
interface is visible from entity.py (constructor Packet(destination, costs),
accessors get_source() and get_costs()).  Per the spec an Envelope is an
immutable carrier of (sender identity, cost-vector snapshot) with copy
semantics, and the sender field of a delivered packet is the identity of the
entity that produced it (the driver stamps it at send time).  A packet here
therefore carries its destination, its source (the index of the emitting
entity) and an immutable snapshot of the cost vector. -/
structure Packet where
  destination : Nat
  source : Nat
  costs : List Int
  deriving DecidableEq

/-- State of class Entity from src/entity.py: index and number_of_entities
are stored by the constructor (lines 28-29); neighbors, vector and next_hop
are established by the initialization call (lines 43-60). -/
structure Entity where
  index : Nat
  number_of_entities : Nat
  neighbors : List Nat
  vector : List Int
  next_hop : List Nat
  deriving DecidableEq

/-- Constructor of Entity (src/entity.py lines 16-29): it stores only the
entity index and the total number of entities; the remaining fields are
given by the later initialization call and are modelled as empty lists in
the meantime. -/
def Entity.base (entity_index number_entities : Nat) : Entity :=
  { index := entity_index, number_of_entities := number_entities,
    neighbors := [], vector := [], next_hop := [] }

/-- Python list assignment l[i] = a for a nonnegative index: in range it
replaces the element, out of range it raises IndexError (modelled as
none). -/
def pySet (l : List α) (i : Nat) (a : α) : Option (List α) :=
  if i < l.length then some (l.set i a) else none

/-- Python list subscript l[i] with a possibly negative index: a
nonnegative index reads from the front, an index in [-len, -1] reads from
the back, and anything else raises IndexError (modelled as none). -/
def pyGet (l : List α) (i : Int) : Option α :=
  if 0 ≤ i then l.get? i.toNat
  else if 0 ≤ i + l.length then l.get? (i + l.length).toNat
  else none

/-- Loop for link in neighbor_costs: vector[link[0]] = link[1], from
Entity.initialize_costs (src/entity.py lines 47-48). -/
def setLinks : List Int → List (Nat × Int) → Option (List Int)
  | v, [] => some v
  | v, link :: rest =>
    match pySet v link.1 link.2 with
    | some v2 => setLinks v2 rest
    | none => none

/-- Loop for neighbor in self.neighbors, from Entity.initialize_costs
(src/entity.py lines 56-58): it records next_hop[neighbor] = neighbor and
appends one packet addressed to the neighbor carrying the freshly built
vector. -/
def neighborLoop (idx : Nat) (vec : List Int) :
    List Nat → List Nat → Option (List Nat × List Packet)
  | nh, [] => some (nh, [])
  | nh, nb :: rest =>
    match pySet nh nb nb with
    | some nh2 =>
      match neighborLoop idx vec nh2 rest with
      | some (nh3, ps) => some (nh3, Packet.mk nb idx vec :: ps)
      | none => none
    | none => none

/-- Entity.initialize_costs from src/entity.py (lines 31-62), named
initCosts here: record the neighbor identities, build the cost vector (999
everywhere, then 0 at the own index, then the link cost at each listed
neighbor), build next_hop (0 everywhere, then the own index at the own
index, then each neighbor at itself) and return one packet per neighbor
carrying the full initial vector. -/
def initCosts (e : Entity) (neighbor_costs : List (Nat × Int)) :
    Option (Entity × List Packet) :=
  let nbs := neighbor_costs.map (fun x => x.1)
  match pySet (List.replicate e.number_of_entities 999) e.index 0 with
  | none => none
  | some v1 =>
    match setLinks v1 neighbor_costs with
    | none => none
    | some vec =>
      match pySet (List.replicate e.number_of_entities 0) e.index e.index with
      | none => none
      | some nh1 =>
        match neighborLoop e.index vec nh1 nbs with
        | none => none
        | some (nh, ps) =>
          some ({ e with neighbors := nbs, vector := vec, next_hop := nh }, ps)

/-- List comprehension new_info = [x + self.vector[packet.get_source()] for
x in packet.get_costs()] from Entity.update (src/entity.py line 76): the
cost to the sender is read once, before any entry is relaxed. -/
def new_info (costs : List Int) (costToSender : Int) : List Int :=
  costs.map (fun x => x + costToSender)

/-- Loop for i in range(self.number_of_entities) from Entity.update
(src/entity.py lines 77-81): whenever new_info[i] < vector[i], write
new_info[i] into vector[i], write the packet source into next_hop[i] and
raise the updated flag; reads and writes out of range raise IndexError
(modelled as none). -/
def dvLoop (newInfo : List Int) (src : Nat) :
    Nat → Nat → List Int → List Nat → Bool → Option (List Int × List Nat × Bool)
  | _, 0, vec, nh, upd => some (vec, nh, upd)
  | i, fuel + 1, vec, nh, upd =>
    match newInfo.get? i, vec.get? i with
    | some ni, some vi =>
      if ni < vi then
        match nh.get? i with
        | some _ => dvLoop newInfo src (i + 1) fuel (vec.set i ni) (nh.set i src) true
        | none => none
      else dvLoop newInfo src (i + 1) fuel vec nh upd
    | _, _ => none

/-- Entity.update from src/entity.py (lines 64-87): relax every destination
against the received costs plus the current cost to the packet source;
if any entry improved, return one packet per neighbor carrying the whole
updated vector, otherwise return no packets. -/
def update (e : Entity) (src : Nat) (costs : List Int) :
    Option (Entity × List Packet) :=
  match e.vector.get? src with
  | none => none
  | some costToSender =>
    match dvLoop (new_info costs costToSender) src 0 e.number_of_entities
        e.vector e.next_hop false with
    | none => none
    | some (vec, nh, upd) =>
      some ({ e with vector := vec, next_hop := nh },
        if upd then e.neighbors.map (fun nb => Packet.mk nb e.index vec) else [])

/-- Deliver a sequence of packets, each a (source, costs) pair, with one
Entity.update call per packet; none if any call raises. -/
def runUpdates : Entity → List (Nat × List Int) → Option Entity
  | e, [] => some e
  | e, p :: rest =>
    match update e p.1 p.2 with
    | some (e2, _) => runUpdates e2 rest
    | none => none

/-- Entity.forward_next_hop from src/entity.py (lines 107-117): a bare
Python subscript into next_hop, so it follows Python indexing semantics,
including negative indices. -/
def forward_next_hop (e : Entity) (destination : Int) : Option Nat :=
  pyGet e.next_hop destination

/-- Entity 0 of a three-node line 0 - 1 - 2 with unit link costs, right
after its initialization call. -/
def entA : Entity :=
  ((initCosts (Entity.base 0 3) [(1, 1)]).getD (Entity.base 0 3, [])).1

/-- Entity 1 (the middle node) of the same three-node line, right after its
initialization call. -/
def entB : Entity :=
  ((initCosts (Entity.base 1 3) [(0, 1), (2, 1)]).getD (Entity.base 1 3, [])).1

/-- Entity 0 of a two-node network with a single link of cost 5, right
after its initialization call. -/
def entTwo : Entity :=
  ((initCosts (Entity.base 0 2) [(1, 5)]).getD (Entity.base 0 2, [])).1

/-- A list read in range returns its getD value. -/
theorem get?_of_lt {α} {l : List α} {d : Nat} (h : d < l.length) (a : α) :
    l.get? d = some (l.getD d a) := by
  cases hh : l.get? d with
  | none => exact absurd (List.get?_eq_none.1 hh) (by omega)
  | some b => rw [List.getD_eq_get?, hh]; rfl

/-- A successful list read determines the getD value. -/
theorem getD_of_get? {α} (a : α) {l : List α} {d : Nat} {x : α}
    (h : l.get? d = some x) : l.getD d a = x := by
  rw [List.getD_eq_get?, h]; rfl

/-- A successful list read is in range. -/
theorem lt_of_get? {α} {l : List α} {d : Nat} {x : α}
    (h : l.get? d = some x) : d < l.length := by
  rcases List.get?_eq_some.1 h with ⟨hd, _⟩
  exact hd

/-- A successful list read yields a member of the list. -/
theorem mem_of_get? {α} {l : List α} {d : Nat} {x : α}
    (h : l.get? d = some x) : x ∈ l := by
  rcases List.get?_eq_some.1 h with ⟨hd, he⟩
  exact he ▸ List.get_mem l d hd

/-- Characterization of a successful run of the relaxation loop of
Entity.update: lengths are preserved, entries outside the scanned range are
untouched, every scanned entry is relaxed exactly when its candidate is
strictly smaller, and the updated flag is raised exactly when some scanned
entry was relaxed. -/
theorem dvLoop_spec (newInfo : List Int) (src : Nat) :
    ∀ (fuel i : Nat) (vec : List Int) (nh : List Nat) (upd : Bool)
      (v : List Int) (nh2 : List Nat) (u2 : Bool),
    dvLoop newInfo src i fuel vec nh upd = some (v, nh2, u2) →
    (v.length = vec.length ∧ nh2.length = nh.length) ∧
    (∀ d, d < i ∨ i + fuel ≤ d → v.get? d = vec.get? d ∧ nh2.get? d = nh.get? d) ∧
    (∀ d, i ≤ d → d < i + fuel →
      ∃ ni vi, newInfo.get? d = some ni ∧ vec.get? d = some vi ∧
        ((ni < vi ∧ v.get? d = some ni ∧ nh2.get? d = some src) ∨
         (¬ ni < vi ∧ v.get? d = some vi ∧ nh2.get? d = nh.get? d))) ∧
    (u2 = true ↔ upd = true ∨ ∃ d ni vi, i ≤ d ∧ d < i + fuel ∧
        newInfo.get? d = some ni ∧ vec.get? d = some vi ∧ ni < vi) := by
  intro fuel
  induction fuel with
  | zero =>
    intro i vec nh upd v nh2 u2 h
    simp only [dvLoop, Option.some.injEq, Prod.mk.injEq] at h
    obtain ⟨rfl, rfl, rfl⟩ := h
    refine ⟨⟨rfl, rfl⟩, fun d _ => ⟨rfl, rfl⟩, fun d h1 h2 => by omega, ?_⟩
    constructor
    · intro h; exact Or.inl h
    · rintro (h | ⟨d, ni, vi, h1, h2, _⟩)
      · exact h
      · omega
  | succ fuel ih =>
    intro i vec nh upd v nh2 u2 h
    rw [dvLoop] at h
    cases hni : newInfo.get? i with
    | none => rw [hni] at h; exact absurd h (by cases vec.get? i <;> simp)
    | some ni =>
    rw [hni] at h
    cases hvi : vec.get? i with
    | none => rw [hvi] at h; exact absurd h (by simp)
    | some vi =>
    rw [hvi] at h
    simp only at h
    have hivec : i < vec.length := lt_of_get? hvi
    by_cases hlt : ni < vi
    · rw [if_pos hlt] at h
      cases hnh : nh.get? i with
      | none => rw [hnh] at h; exact absurd h (by simp)
      | some w =>
      rw [hnh] at h
      simp only at h
      have hinh : i < nh.length := lt_of_get? hnh
      obtain ⟨⟨hl1, hl2⟩, hframe, hrel, hupd⟩ :=
        ih (i + 1) (vec.set i ni) (nh.set i src) true v nh2 u2 h
      refine ⟨⟨by rw [hl1, List.length_set], by rw [hl2, List.length_set]⟩,
        ?_, ?_, ?_⟩
      · intro d hd
        have hne : i ≠ d := by omega
        have := hframe d (by omega)
        rw [List.get?_set_ne _ _ hne, List.get?_set_ne _ _ hne] at this
        exact this
      · intro d hd1 hd2
        rcases Nat.lt_or_ge d (i + 1) with hcase | hcase
        · have hdi : d = i := by omega
          have hfr := hframe d (Or.inl hcase)
          rw [hdi] at hfr
          rw [List.get?_set_eq_of_lt _ hivec, List.get?_set_eq_of_lt _ hinh] at hfr
          rw [hdi]
          exact ⟨ni, vi, hni, hvi, Or.inl ⟨hlt, hfr.1, hfr.2⟩⟩
        · have hne : i ≠ d := by omega
          obtain ⟨ni2, vi2, h1, h2, h3⟩ := hrel d (by omega) (by omega)
          rw [List.get?_set_ne _ _ hne] at h2
          refine ⟨ni2, vi2, h1, h2, ?_⟩
          rcases h3 with ⟨ha, hb, hc⟩ | ⟨ha, hb, hc⟩
          · exact Or.inl ⟨ha, hb, hc⟩
          · rw [List.get?_set_ne _ _ hne] at hc
            exact Or.inr ⟨ha, hb, hc⟩
      · have hu2 : u2 = true := hupd.2 (Or.inl rfl)
        subst hu2
        exact ⟨fun _ => Or.inr ⟨i, ni, vi, le_refl i, by omega, hni, hvi, hlt⟩,
          fun _ => rfl⟩
    · rw [if_neg hlt] at h
      obtain ⟨⟨hl1, hl2⟩, hframe, hrel, hupd⟩ :=
        ih (i + 1) vec nh upd v nh2 u2 h
      refine ⟨⟨hl1, hl2⟩, ?_, ?_, ?_⟩
      · intro d hd
        exact hframe d (by omega)
      · intro d hd1 hd2
        rcases Nat.lt_or_ge d (i + 1) with hcase | hcase
        · have hdi : d = i := by omega
          have hfr := hframe d (Or.inl hcase)
          rw [hdi] at hfr
          rw [hdi]
          exact ⟨ni, vi, hni, hvi, Or.inr ⟨hlt, hfr.1.trans hvi, hfr.2⟩⟩
        · exact hrel d (by omega) (by omega)
      · rw [hupd]
        constructor
        · rintro (hu | ⟨d, ni2, vi2, h1, h2, h3, h4, h5⟩)
          · exact Or.inl hu
          · exact Or.inr ⟨d, ni2, vi2, by omega, by omega, h3, h4, h5⟩
        · rintro (hu | ⟨d, ni2, vi2, h1, h2, h3, h4, h5⟩)
          · exact Or.inl hu
          · rcases Nat.lt_or_ge d (i + 1) with hcase | hcase
            · have hdi : d = i := by omega
              rw [hdi, hni] at h3
              rw [hdi, hvi] at h4
              cases h3; cases h4
              exact absurd h5 hlt
            · exact Or.inr ⟨d, ni2, vi2, by omega, by omega, h3, h4, h5⟩

/-- The relaxation loop of Entity.update succeeds whenever the scanned range
is within the bounds of every list involved. -/
theorem dvLoop_isSome (newInfo : List Int) (src : Nat) :
    ∀ (fuel i : Nat) (vec : List Int) (nh : List Nat) (upd : Bool),
    i + fuel ≤ newInfo.length → i + fuel ≤ vec.length → i + fuel ≤ nh.length →
    ∃ r, dvLoop newInfo src i fuel vec nh upd = some r := by
  intro fuel
  induction fuel with
  | zero => intro i vec nh upd _ _ _; exact ⟨(vec, nh, upd), rfl⟩
  | succ fuel ih =>
    intro i vec nh upd h1 h2 h3
    rw [dvLoop]
    rw [get?_of_lt (show i < newInfo.length by omega) 0]
    rw [get?_of_lt (show i < vec.length by omega) 0]
    simp only
    by_cases hlt : newInfo.getD i 0 < vec.getD i 0
    · rw [if_pos hlt]
      rw [get?_of_lt (show i < nh.length by omega) 0]
      exact ih (i + 1) (vec.set i (newInfo.getD i 0)) (nh.set i src) true
        (by omega) (by rw [List.length_set]; omega) (by rw [List.length_set]; omega)
    · rw [if_neg hlt]
      exact ih (i + 1) vec nh upd (by omega) (by omega) (by omega)

/-- Destructor for a successful Entity.update call: it exposes the cost to
the sender that was read before the loop, the loop result, the new state
and the returned packets. -/
theorem update_eq {e : Entity} {src : Nat} {costs : List Int} {e2 : Entity}
    {ps : List Packet} (h : update e src costs = some (e2, ps)) :
    ∃ cts vec nh upd,
      e.vector.get? src = some cts ∧
      dvLoop (new_info costs cts) src 0 e.number_of_entities e.vector
        e.next_hop false = some (vec, nh, upd) ∧
      e2 = { e with vector := vec, next_hop := nh } ∧
      ps = if upd then e.neighbors.map (fun nb => Packet.mk nb e.index vec)
        else [] := by
  rw [update] at h
  cases hc : e.vector.get? src with
  | none => rw [hc] at h; exact absurd h (by simp)
  | some cts =>
  rw [hc] at h
  simp only at h
  cases hd : dvLoop (new_info costs cts) src 0 e.number_of_entities e.vector
      e.next_hop false with
  | none => rw [hd] at h; exact absurd h (by simp)
  | some r =>
  obtain ⟨vec, nh, upd⟩ := r
  rw [hd] at h
  simp only [Option.some.injEq, Prod.mk.injEq] at h
  exact ⟨cts, vec, nh, upd, rfl, hd, h.1.symm, h.2.symm⟩

/-- Entity.update succeeds whenever the entity is well formed, the received
vector is long enough and the source index is in range. -/
theorem update_isSome (e : Entity) (src : Nat) (costs : List Int)
    (h1 : e.vector.length = e.number_of_entities)
    (h2 : e.next_hop.length = e.number_of_entities)
    (h3 : e.number_of_entities ≤ costs.length)
    (h4 : src < e.number_of_entities) :
    ∃ r, update e src costs = some r := by
  rw [update]
  rw [get?_of_lt (show src < e.vector.length by omega) 0]
  simp only
  obtain ⟨⟨vec, nh, upd⟩, hr⟩ :=
    dvLoop_isSome (new_info costs (e.vector.getD src 0)) src
      e.number_of_entities 0 e.vector e.next_hop false
      (by simp only [new_info, List.length_map]; omega) (by omega) (by omega)
  rw [hr]
  exact ⟨_, rfl⟩

/-- Characterization of a successful run of the link loop of
Entity.initialize_costs: lengths are preserved, entries at indices not
listed are untouched, every element of the result was already present or is
a listed cost, and with no duplicate identities every listed link cost is
stored at its identity. -/
theorem setLinks_spec : ∀ (ncosts : List (Nat × Int)) (v v2 : List Int),
    setLinks v ncosts = some v2 →
    v2.length = v.length ∧
    (∀ d, d ∉ ncosts.map Prod.fst → v2.get? d = v.get? d) ∧
    (∀ x ∈ v2, x ∈ v ∨ ∃ p ∈ ncosts, x = p.2) ∧
    ((ncosts.map Prod.fst).Nodup → ∀ p ∈ ncosts, v2.get? p.1 = some p.2) := by
  intro ncosts
  induction ncosts with
  | nil =>
    intro v v2 h
    simp only [setLinks, Option.some.injEq] at h
    subst h
    exact ⟨rfl, fun d _ => rfl, fun x hx => Or.inl hx,
      fun _ p hp => absurd hp (List.not_mem_nil p)⟩
  | cons q rest ih =>
    intro v v2 h
    rw [setLinks] at h
    cases hq : pySet v q.1 q.2 with
    | none => rw [hq] at h; exact absurd h (by simp)
    | some v1 =>
    rw [hq] at h
    simp only at h
    have hb : q.1 < v.length := by
      by_contra hc
      rw [pySet, if_neg hc] at hq
      exact Option.noConfusion hq
    have hv1 : v1 = v.set q.1 q.2 := by
      rw [pySet, if_pos hb] at hq
      exact (Option.some.inj hq).symm
    subst hv1
    obtain ⟨hlen, hnot, hmem, hnodup⟩ := ih (v.set q.1 q.2) v2 h
    refine ⟨by rw [hlen, List.length_set], ?_, ?_, ?_⟩
    · intro d hd
      rw [List.map_cons, List.mem_cons, not_or] at hd
      rw [hnot d hd.2, List.get?_set_ne _ _ (Ne.symm hd.1)]
    · intro x hx
      rcases hmem x hx with hx2 | ⟨p, hp, he⟩
      · rcases List.mem_or_eq_of_mem_set hx2 with h3 | h3
        · exact Or.inl h3
        · exact Or.inr ⟨q, List.mem_cons_self q rest, h3⟩
      · exact Or.inr ⟨p, List.mem_cons_of_mem q hp, he⟩
    · intro hnd p hp
      rw [List.map_cons, List.nodup_cons] at hnd
      rcases List.mem_cons.1 hp with rfl | hp2
      · rw [hnot p.1 hnd.1, List.get?_set_eq_of_lt _ hb]
      · exact hnodup hnd.2 p hp2

/-- The link loop of Entity.initialize_costs succeeds whenever every listed
identity is in range. -/
theorem setLinks_isSome : ∀ (ncosts : List (Nat × Int)) (v : List Int),
    (∀ p ∈ ncosts, p.1 < v.length) → ∃ v2, setLinks v ncosts = some v2 := by
  intro ncosts
  induction ncosts with
  | nil => intro v _; exact ⟨v, rfl⟩
  | cons q rest ih =>
    intro v hv
    rw [setLinks, pySet, if_pos (hv q (List.mem_cons_self q rest))]
    simp only
    exact ih (v.set q.1 q.2) fun p hp => by
      rw [List.length_set]; exact hv p (List.mem_cons_of_mem q hp)

/-- Characterization of a successful run of the neighbor loop of
Entity.initialize_costs: lengths are preserved, entries at identities not
listed are untouched, every listed neighbor points at itself, and the
packets are one per neighbor, in order, all carrying the given vector. -/
theorem neighborLoop_spec (idx : Nat) (vec : List Int) :
    ∀ (nbs : List Nat) (nh nh2 : List Nat) (ps : List Packet),
    neighborLoop idx vec nh nbs = some (nh2, ps) →
    nh2.length = nh.length ∧
    (∀ d, d ∉ nbs → nh2.get? d = nh.get? d) ∧
    (∀ nb ∈ nbs, nh2.get? nb = some nb) ∧
    ps = nbs.map (fun nb => Packet.mk nb idx vec) := by
  intro nbs
  induction nbs with
  | nil =>
    intro nh nh2 ps h
    simp only [neighborLoop, Option.some.injEq, Prod.mk.injEq] at h
    refine ⟨by rw [h.1], fun d _ => by rw [h.1], fun nb hnb => absurd hnb (List.not_mem_nil nb), h.2.symm⟩
  | cons nb rest ih =>
    intro nh nh2 ps h
    rw [neighborLoop] at h
    cases hq : pySet nh nb nb with
    | none => rw [hq] at h; exact absurd h (by simp)
    | some nhx =>
    rw [hq] at h
    simp only at h
    cases hr : neighborLoop idx vec nhx rest with
    | none => rw [hr] at h; exact absurd h (by simp)
    | some pr =>
    obtain ⟨nh3, ps3⟩ := pr
    rw [hr] at h
    simp only [Option.some.injEq, Prod.mk.injEq] at h
    have hb : nb < nh.length := by
      by_contra hc
      rw [pySet, if_neg hc] at hq
      exact Option.noConfusion hq
    have hnx : nhx = nh.set nb nb := by
      rw [pySet, if_pos hb] at hq
      exact (Option.some.inj hq).symm
    subst hnx
    obtain ⟨hlen, hnot, hmem, hps⟩ := ih (nh.set nb nb) nh3 ps3 hr
    refine ⟨by rw [← h.1, hlen, List.length_set], ?_, ?_, ?_⟩
    · intro d hd
      rw [List.mem_cons, not_or] at hd
      rw [← h.1, hnot d hd.2, List.get?_set_ne _ _ (Ne.symm hd.1)]
    · intro m hm
      rcases List.mem_cons.1 hm with rfl | hm2
      · by_cases hin : m ∈ rest
        · rw [← h.1]; exact hmem m hin
        · rw [← h.1, hnot m hin, List.get?_set_eq_of_lt _ hb]
      · rw [← h.1]; exact hmem m hm2
    · rw [← h.2, hps, List.map_cons]

/-- The neighbor loop of Entity.initialize_costs succeeds whenever every
listed neighbor identity is in range. -/
theorem neighborLoop_isSome (idx : Nat) (vec : List Int) :
    ∀ (nbs : List Nat) (nh : List Nat),
    (∀ nb ∈ nbs, nb < nh.length) →
    ∃ r, neighborLoop idx vec nh nbs = some r := by
  intro nbs
  induction nbs with
  | nil => intro nh _; exact ⟨(nh, []), rfl⟩
  | cons nb rest ih =>
    intro nh hv
    rw [neighborLoop, pySet, if_pos (hv nb (List.mem_cons_self nb rest))]
    simp only
    obtain ⟨⟨nh3, ps3⟩, hr⟩ := ih (nh.set nb nb) fun m hm => by
      rw [List.length_set]; exact hv m (List.mem_cons_of_mem nb hm)
    rw [hr]
    exact ⟨_, rfl⟩

/-- Destructor for a successful Entity.initialize_costs call: it exposes the
intermediate vector and next-hop tables and the final state. -/
theorem initCosts_eq {e : Entity} {ncosts : List (Nat × Int)} {e0 : Entity}
    {ps : List Packet} (h : initCosts e ncosts = some (e0, ps)) :
    ∃ v1 vec nh1 nh,
      pySet (List.replicate e.number_of_entities 999) e.index 0 = some v1 ∧
      setLinks v1 ncosts = some vec ∧
      pySet (List.replicate e.number_of_entities 0) e.index e.index = some nh1 ∧
      neighborLoop e.index vec nh1 (ncosts.map (fun x => x.1)) = some (nh, ps) ∧
      e0 = { e with neighbors := ncosts.map (fun x => x.1), vector := vec, next_hop := nh } := by
  rw [initCosts] at h
  cases h1 : pySet (List.replicate e.number_of_entities (999 : Int)) e.index 0 with
  | none => rw [h1] at h; exact absurd h (by simp)
  | some v1 =>
  rw [h1] at h
  simp only at h
  cases h2 : setLinks v1 ncosts with
  | none => rw [h2] at h; exact absurd h (by simp)
  | some vec =>
  rw [h2] at h
  simp only at h
  cases h3 : pySet (List.replicate e.number_of_entities 0) e.index e.index with
  | none => rw [h3] at h; exact absurd h (by simp)
  | some nh1 =>
  rw [h3] at h
  simp only at h
  cases h4 : neighborLoop e.index vec nh1 (ncosts.map (fun x => x.1)) with
  | none => rw [h4] at h; exact absurd h (by simp)
  | some r =>
  obtain ⟨nh, ps2⟩ := r
  rw [h4] at h
  simp only [Option.some.injEq, Prod.mk.injEq] at h
  exact ⟨v1, vec, nh1, nh, rfl, h2, rfl, by rw [← h.2]; exact h4, h.1.symm⟩

/-- Entity.initialize_costs succeeds whenever the own index and every listed
neighbor identity are in range. -/
theorem initCosts_isSome (e : Entity) (ncosts : List (Nat × Int))
    (h1 : e.index < e.number_of_entities)
    (h2 : ∀ p ∈ ncosts, p.1 < e.number_of_entities) :
    ∃ r, initCosts e ncosts = some r := by
  rw [initCosts]
  rw [show pySet (List.replicate e.number_of_entities (999 : Int)) e.index 0
      = some ((List.replicate e.number_of_entities (999 : Int)).set e.index 0) by
    rw [pySet, if_pos (by rw [List.length_replicate]; exact h1)]]
  simp only
  obtain ⟨vec, hvec⟩ := setLinks_isSome ncosts
    ((List.replicate e.number_of_entities (999 : Int)).set e.index 0)
    (fun p hp => by
      rw [List.length_set, List.length_replicate]; exact h2 p hp)
  rw [hvec]
  simp only
  rw [show pySet (List.replicate e.number_of_entities 0) e.index e.index
      = some ((List.replicate e.number_of_entities 0).set e.index e.index) by
    rw [pySet, if_pos (by rw [List.length_replicate]; exact h1)]]
  simp only
  obtain ⟨⟨nh, ps⟩, hnh⟩ := neighborLoop_isSome e.index vec
    (ncosts.map (fun x => x.1))
    ((List.replicate e.number_of_entities 0).set e.index e.index)
    (fun nb hnb => by
      rw [List.length_set, List.length_replicate]
      obtain ⟨p, hp, he⟩ := List.mem_map.1 hnb
      exact he ▸ h2 p hp)
  rw [hnh]
  exact ⟨_, rfl⟩

/-- Lists that agree on a read agree on the getD value. -/
theorem getD_congr {α} (a : α) {l1 l2 : List α} {d : Nat}
    (h : l1.get? d = l2.get? d) : l1.getD d a = l2.getD d a := by
  rw [List.getD_eq_get?, List.getD_eq_get?, h]

/-- A getD value read in range is a member of the list. -/
theorem getD_mem {α} {l : List α} {d : Nat} (h : d < l.length) (a : α) :
    l.getD d a ∈ l := mem_of_get? (get?_of_lt h a)

/-- Entry d of the candidate list of Entity.update is the received cost for
d plus the cost to the sender. -/
theorem new_info_get? {costs : List Int} {cts : Int} {d : Nat}
    (h : d < costs.length) :
    (new_info costs cts).get? d = some (costs.getD d 0 + cts) := by
  rw [new_info, List.get?_map, get?_of_lt h 0]
  rfl

/-- Full characterization of a successful Entity.update call: the identity,
size and neighbor fields are untouched, the table lengths are preserved,
entries beyond number_of_entities are untouched, every entry below it is
relaxed exactly when the candidate cost through the sender is a strict
improvement, packets are a full-vector broadcast to every neighbor when some
entry improved, and the call is a complete no-op when none did. -/
theorem update_some_spec {e : Entity} {src : Nat} {costs : List Int}
    {e2 : Entity} {ps : List Packet}
    (h : update e src costs = some (e2, ps)) :
    src < e.vector.length ∧
    e2.index = e.index ∧ e2.number_of_entities = e.number_of_entities ∧
    e2.neighbors = e.neighbors ∧
    e2.vector.length = e.vector.length ∧
    e2.next_hop.length = e.next_hop.length ∧
    (∀ d, e.number_of_entities ≤ d →
      e2.vector.get? d = e.vector.get? d ∧
      e2.next_hop.get? d = e.next_hop.get? d) ∧
    (∀ d, d < e.number_of_entities →
      d < costs.length ∧ d < e.vector.length ∧
      ((costs.getD d 0 + e.vector.getD src 0 < e.vector.getD d 0 ∧
        e2.vector.getD d 0 = costs.getD d 0 + e.vector.getD src 0 ∧
        e2.next_hop.getD d 0 = src) ∨
       (¬ costs.getD d 0 + e.vector.getD src 0 < e.vector.getD d 0 ∧
        e2.vector.getD d 0 = e.vector.getD d 0 ∧
        e2.next_hop.getD d 0 = e.next_hop.getD d 0))) ∧
    ((∃ d, d < e.number_of_entities ∧
        costs.getD d 0 + e.vector.getD src 0 < e.vector.getD d 0) →
      ps = e.neighbors.map (fun nb => Packet.mk nb e.index e2.vector)) ∧
    (¬ (∃ d, d < e.number_of_entities ∧
        costs.getD d 0 + e.vector.getD src 0 < e.vector.getD d 0) →
      e2 = e ∧ ps = []) := by
  obtain ⟨cts, vec, nh, upd, hget, hloop, he2, hps⟩ := update_eq h
  have hsrc : src < e.vector.length := lt_of_get? hget
  have hcts : e.vector.getD src 0 = cts := getD_of_get? 0 hget
  obtain ⟨⟨hl1, hl2⟩, hframe, hrel, hupdiff⟩ :=
    dvLoop_spec (new_info costs cts) src e.number_of_entities 0 e.vector
      e.next_hop false vec nh upd hloop
  subst he2
  have hpoint : ∀ d, d < e.number_of_entities →
      d < costs.length ∧ d < e.vector.length ∧
      ((costs.getD d 0 + e.vector.getD src 0 < e.vector.getD d 0 ∧
        vec.getD d 0 = costs.getD d 0 + e.vector.getD src 0 ∧
        nh.getD d 0 = src) ∨
       (¬ costs.getD d 0 + e.vector.getD src 0 < e.vector.getD d 0 ∧
        vec.getD d 0 = e.vector.getD d 0 ∧
        nh.getD d 0 = e.next_hop.getD d 0)) := by
    intro d hd
    obtain ⟨ni, vi, hni, hvi, hcase⟩ := hrel d (Nat.zero_le d) (by omega)
    have hdc : d < costs.length := by
      have := lt_of_get? hni
      rw [new_info, List.length_map] at this
      exact this
    have hdv : d < e.vector.length := lt_of_get? hvi
    have hniv : ni = costs.getD d 0 + cts := by
      rw [new_info_get? hdc] at hni
      exact (Option.some.inj hni).symm
    have hvid : e.vector.getD d 0 = vi := getD_of_get? 0 hvi
    refine ⟨hdc, hdv, ?_⟩
    rcases hcase with ⟨hlt, hv2, hn2⟩ | ⟨hlt, hv2, hn2⟩
    · exact Or.inl ⟨by rw [hcts, hvid, ← hniv]; exact hlt,
        by rw [getD_of_get? 0 hv2, hniv, hcts],
        getD_of_get? 0 hn2⟩
    · exact Or.inr ⟨by rw [hcts, hvid, ← hniv]; exact hlt,
        by rw [getD_of_get? 0 hv2, hvid], getD_congr 0 hn2⟩
  have himp : upd = true ↔ ∃ d, d < e.number_of_entities ∧
      costs.getD d 0 + e.vector.getD src 0 < e.vector.getD d 0 := by
    rw [hupdiff]
    constructor
    · rintro (hcontra | ⟨d, ni, vi, _, hd2, hni, hvi, hlt⟩)
      · exact absurd hcontra (by simp)
      · have hdc : d < costs.length := by
          have := lt_of_get? hni
          rw [new_info, List.length_map] at this
          exact this
        have hniv : ni = costs.getD d 0 + cts := by
          rw [new_info_get? hdc] at hni
          exact (Option.some.inj hni).symm
        exact ⟨d, by omega, by
          rw [hcts, getD_of_get? 0 hvi, ← hniv]; exact hlt⟩
    · rintro ⟨d, hd, hlt⟩
      obtain ⟨ni, vi, hni, hvi, _⟩ := hrel d (Nat.zero_le d) (by omega)
      have hdc : d < costs.length := by
        have := lt_of_get? hni
        rw [new_info, List.length_map] at this
        exact this
      have hniv : ni = costs.getD d 0 + cts := by
        rw [new_info_get? hdc] at hni
        exact (Option.some.inj hni).symm
      refine Or.inr ⟨d, ni, vi, Nat.zero_le d, by omega, hni, hvi, ?_⟩
      rw [hniv, ← hcts]
      rw [getD_of_get? 0 hvi] at hlt
      exact hlt
  refine ⟨hsrc, rfl, rfl, rfl, hl1, hl2, ?_, hpoint, ?_, ?_⟩
  · intro d hd
    exact hframe d (Or.inr (by omega))
  · intro himp2
    rw [hps, if_pos (himp.2 himp2)]
  · intro hnimp
    have hupd : upd = false := by
      cases hu : upd with
      | false => rfl
      | true => exact absurd (himp.1 hu) hnimp
    subst hupd
    have hveq : vec = e.vector := by
      apply List.ext
      intro n
      rcases Nat.lt_or_ge n e.number_of_entities with hn | hn
      · obtain ⟨ni, vi, hni, hvi, hcase⟩ := hrel n (Nat.zero_le n) (by omega)
        rcases hcase with ⟨hlt, hv2, _⟩ | ⟨_, hv2, _⟩
        · exfalso
          apply hnimp
          obtain ⟨hdc, hdv, hbr⟩ := hpoint n hn
          rcases hbr with ⟨hlt2, _, _⟩ | ⟨hlt2, _, _⟩
          · exact ⟨n, hn, hlt2⟩
          · exfalso
            apply hlt2
            have hniv : ni = costs.getD n 0 + cts := by
              rw [new_info_get? hdc] at hni
              exact (Option.some.inj hni).symm
            rw [hcts, getD_of_get? 0 hvi, ← hniv]
            exact hlt
        · rw [hv2, hvi]
      · exact (hframe n (Or.inr (by omega))).1
    have hneq : nh = e.next_hop := by
      apply List.ext
      intro n
      rcases Nat.lt_or_ge n e.number_of_entities with hn | hn
      · obtain ⟨ni, vi, hni, hvi, hcase⟩ := hrel n (Nat.zero_le n) (by omega)
        rcases hcase with ⟨hlt, _, _⟩ | ⟨_, _, hn2⟩
        · exfalso
          apply hnimp
          obtain ⟨hdc, hdv, _⟩ := hpoint n hn
          have hniv : ni = costs.getD n 0 + cts := by
            rw [new_info_get? hdc] at hni
            exact (Option.some.inj hni).symm
          exact ⟨n, hn, by
            rw [hcts, getD_of_get? 0 hvi, ← hniv]; exact hlt⟩
        · exact hn2
      · exact (hframe n (Or.inr (by omega))).2
    constructor
    · rw [hveq, hneq]
    · rw [hps]
      rfl

/-- Full characterization of a successful Entity.initialize_costs call:
sizes, the neighbor list, every vector and next-hop entry, and the returned
packets. -/
theorem initCosts_spec {e : Entity} {ncosts : List (Nat × Int)} {e0 : Entity}
    {ps : List Packet} (h : initCosts e ncosts = some (e0, ps)) :
    e0.index = e.index ∧ e0.number_of_entities = e.number_of_entities ∧
    e0.neighbors = ncosts.map (fun x => x.1) ∧
    e0.vector.length = e.number_of_entities ∧
    e0.next_hop.length = e.number_of_entities ∧
    e.index < e.number_of_entities ∧
    (∀ x ∈ e0.vector, x = 999 ∨ x = 0 ∨ ∃ p ∈ ncosts, x = p.2) ∧
    (∀ d, d < e.number_of_entities → d ≠ e.index →
      d ∉ ncosts.map (fun x => x.1) →
      e0.vector.get? d = some 999 ∧ e0.next_hop.get? d = some 0) ∧
    (e.index ∉ ncosts.map (fun x => x.1) →
      e0.vector.get? e.index = some 0) ∧
    ((ncosts.map (fun x => x.1)).Nodup →
      ∀ p ∈ ncosts, e0.vector.get? p.1 = some p.2) ∧
    e0.next_hop.get? e.index = some e.index ∧
    (∀ nb ∈ ncosts.map (fun x => x.1), e0.next_hop.get? nb = some nb) ∧
    ps = (ncosts.map (fun x => x.1)).map
      (fun nb => Packet.mk nb e.index e0.vector) := by
  obtain ⟨v1, vec, nh1, nh, h1, h2, h3, h4, he0⟩ := initCosts_eq h
  have hidx : e.index < e.number_of_entities := by
    by_contra hc
    rw [pySet, if_neg (by rw [List.length_replicate]; exact hc)] at h1
    exact Option.noConfusion h1
  have hv1 : v1 = (List.replicate e.number_of_entities (999 : Int)).set e.index 0 := by
    rw [pySet, if_pos (by rw [List.length_replicate]; exact hidx)] at h1
    exact (Option.some.inj h1).symm
  have hnh1 : nh1 = (List.replicate e.number_of_entities 0).set e.index e.index := by
    rw [pySet, if_pos (by rw [List.length_replicate]; exact hidx)] at h3
    exact (Option.some.inj h3).symm
  subst hv1
  subst hnh1
  subst he0
  obtain ⟨hsl_len, hsl_not, hsl_mem, hsl_nodup⟩ := setLinks_spec ncosts _ vec h2
  obtain ⟨hnl_len, hnl_not, hnl_mem, hnl_ps⟩ :=
    neighborLoop_spec e.index vec (ncosts.map (fun x => x.1)) _ nh ps h4
  have hveclen : vec.length = e.number_of_entities := by
    rw [hsl_len, List.length_set, List.length_replicate]
  have hnhlen : nh.length = e.number_of_entities := by
    rw [hnl_len, List.length_set, List.length_replicate]
  refine ⟨rfl, rfl, rfl, hveclen, hnhlen, hidx, ?_, ?_, ?_, ?_, ?_, ?_, hnl_ps⟩
  · intro x hx
    rcases hsl_mem x hx with hx2 | ⟨p, hp, he⟩
    · rcases List.mem_or_eq_of_mem_set hx2 with h5 | h5
      · exact Or.inl (List.eq_of_mem_replicate h5)
      · exact Or.inr (Or.inl h5)
    · exact Or.inr (Or.inr ⟨p, hp, he⟩)
  · intro d hd hdi hdn
    constructor
    · rw [hsl_not d hdn, List.get?_set_ne _ _ (Ne.symm hdi),
        List.get?_eq_getElem?, List.getElem?_replicate_of_lt hd]
    · rw [hnl_not d hdn, List.get?_set_ne _ _ (Ne.symm hdi),
        List.get?_eq_getElem?, List.getElem?_replicate_of_lt hd]
  · intro hin
    rw [hsl_not e.index hin,
      List.get?_set_eq_of_lt _ (by rw [List.length_replicate]; exact hidx)]
  · exact hsl_nodup
  · by_cases hin : e.index ∈ ncosts.map (fun x => x.1)
    · exact hnl_mem e.index hin
    · rw [hnl_not e.index hin,
        List.get?_set_eq_of_lt _ (by rw [List.length_replicate]; exact hidx)]
  · exact hnl_mem

/-- Entity.update never increases any vector entry. -/
theorem update_mono {e : Entity} {src : Nat} {costs : List Int} {e2 : Entity}
    {ps : List Packet} (h : update e src costs = some (e2, ps)) (d : Nat) :
    e2.vector.getD d 0 ≤ e.vector.getD d 0 := by
  obtain ⟨_, _, _, _, _, _, hout, hpoint, _, _⟩ := update_some_spec h
  rcases Nat.lt_or_ge d e.number_of_entities with hd | hd
  · obtain ⟨_, _, hbr⟩ := hpoint d hd
    rcases hbr with ⟨hlt, heq, _⟩ | ⟨_, heq, _⟩
    · rw [heq]; omega
    · rw [heq]
  · rw [getD_congr 0 (hout d hd).1]

/-- Entity.update keeps every vector entry nonnegative when the received
costs are nonnegative. -/
theorem update_nonneg {e : Entity} {src : Nat} {costs : List Int}
    {e2 : Entity} {ps : List Packet} (h : update e src costs = some (e2, ps))
    (hcost : ∀ c ∈ costs, 0 ≤ c) (hvec : ∀ x ∈ e.vector, 0 ≤ x) :
    ∀ x ∈ e2.vector, 0 ≤ x := by
  intro x hx
  obtain ⟨hsrc, _, _, _, hlen, _, hout, hpoint, _, _⟩ := update_some_spec h
  obtain ⟨⟨n, hn⟩, hxe⟩ := List.mem_iff_get.1 hx
  have hget : e2.vector.get? n = some x := List.get?_eq_some.2 ⟨hn, hxe⟩
  have hxd : e2.vector.getD n 0 = x := getD_of_get? 0 hget
  rcases Nat.lt_or_ge n e.number_of_entities with hd | hd
  · obtain ⟨hdc, hdv, hbr⟩ := hpoint n hd
    rcases hbr with ⟨_, heq, _⟩ | ⟨_, heq, _⟩
    · have h1 : 0 ≤ costs.getD n 0 := hcost _ (getD_mem hdc 0)
      have h2 : 0 ≤ e.vector.getD src 0 := hvec _ (getD_mem hsrc 0)
      rw [← hxd, heq]
      omega
    · rw [← hxd, heq]
      exact hvec _ (getD_mem hdv 0)
  · have hn2 : n < e.vector.length := by rw [← hlen]; exact hn
    rw [← hxd, getD_congr 0 (hout n hd).1]
    exact hvec _ (getD_mem hn2 0)

/-- Entity.update keeps the own entry at zero when the received costs are
nonnegative and every current entry is nonnegative. -/
theorem update_self_zero {e : Entity} {src : Nat} {costs : List Int}
    {e2 : Entity} {ps : List Packet} (h : update e src costs = some (e2, ps))
    (hcost : ∀ c ∈ costs, 0 ≤ c) (hvec : ∀ x ∈ e.vector, 0 ≤ x)
    (idx : Nat) (h0 : e.vector.getD idx 0 = 0) :
    e2.vector.getD idx 0 = 0 := by
  obtain ⟨hsrc, _, _, _, _, _, hout, hpoint, _, _⟩ := update_some_spec h
  rcases Nat.lt_or_ge idx e.number_of_entities with hd | hd
  · obtain ⟨hdc, hdv, hbr⟩ := hpoint idx hd
    rcases hbr with ⟨hlt, _, _⟩ | ⟨_, heq, _⟩
    · exfalso
      have h1 : 0 ≤ costs.getD idx 0 := hcost _ (getD_mem hdc 0)
      have h2 : 0 ≤ e.vector.getD src 0 := hvec _ (getD_mem hsrc 0)
      rw [h0] at hlt
      omega
    · rw [heq, h0]
  · rw [getD_congr 0 (hout idx hd).1, h0]

/-- Entity.update keeps every vector entry at most 999. -/
theorem update_le_999 {e : Entity} {src : Nat} {costs : List Int}
    {e2 : Entity} {ps : List Packet} (h : update e src costs = some (e2, ps))
    (hvec : ∀ x ∈ e.vector, x ≤ 999) :
    ∀ x ∈ e2.vector, x ≤ 999 := by
  intro x hx
  obtain ⟨hsrc, _, _, _, hlen, _, hout, hpoint, _, _⟩ := update_some_spec h
  obtain ⟨⟨n, hn⟩, hxe⟩ := List.mem_iff_get.1 hx
  have hget : e2.vector.get? n = some x := List.get?_eq_some.2 ⟨hn, hxe⟩
  have hxd : e2.vector.getD n 0 = x := getD_of_get? 0 hget
  rcases Nat.lt_or_ge n e.number_of_entities with hd | hd
  · obtain ⟨hdc, hdv, hbr⟩ := hpoint n hd
    rcases hbr with ⟨hlt, heq, _⟩ | ⟨_, heq, _⟩
    · have h1 : e.vector.getD n 0 ≤ 999 := hvec _ (getD_mem hdv 0)
      rw [← hxd, heq]
      omega
    · rw [← hxd, heq]
      exact hvec _ (getD_mem hdv 0)
  · have hn2 : n < e.vector.length := by rw [← hlen]; exact hn
    rw [← hxd, getD_congr 0 (hout n hd).1]
    exact hvec _ (getD_mem hn2 0)

/-- A property of the entity state is preserved by any delivered sequence of
packets satisfying a per-packet condition, provided one Entity.update call
on a packet satisfying the condition preserves it. -/
theorem runUpdates_pres {P : Entity → Prop} {Q : Nat × List Int → Prop}
    (hstep : ∀ e src costs e2 ps, update e src costs = some (e2, ps) →
      Q (src, costs) → P e → P e2) :
    ∀ (pkts : List (Nat × List Int)) (e e2 : Entity),
    runUpdates e pkts = some e2 →
    (∀ p ∈ pkts, Q p) → P e → P e2 := by
  intro pkts
  induction pkts with
  | nil =>
    intro e e2 h _ hp
    rw [runUpdates] at h
    exact (Option.some.inj h) ▸ hp
  | cons q rest ih =>
    intro e e2 h hq hp
    rw [runUpdates] at h
    cases hu : update e q.1 q.2 with
    | none => rw [hu] at h; exact absurd h (by simp)
    | some r =>
    obtain ⟨e1, ps1⟩ := r
    rw [hu] at h
    simp only at h
    exact ih e1 e2 h (fun p hp2 => hq p (List.mem_cons_of_mem q hp2))
      (hstep e q.1 q.2 e1 ps1 hu (hq q (List.mem_cons_self q rest)) hp)

/-- Across any delivered sequence of packets, no vector entry ever
increases. -/
theorem runUpdates_mono :
    ∀ (pkts : List (Nat × List Int)) (e e2 : Entity),
    runUpdates e pkts = some e2 →
    ∀ d, e2.vector.getD d 0 ≤ e.vector.getD d 0 := by
  intro pkts
  induction pkts with
  | nil =>
    intro e e2 h d
    rw [runUpdates] at h
    rw [← Option.some.inj h]
  | cons q rest ih =>
    intro e e2 h d
    rw [runUpdates] at h
    cases hu : update e q.1 q.2 with
    | none => rw [hu] at h; exact absurd h (by simp)
    | some r =>
    obtain ⟨e1, ps1⟩ := r
    rw [hu] at h
    simp only at h
    exact le_trans (ih e1 e2 h d) (update_mono hu d)

/-- The state of entA after absorbing one packet from its neighbor 1
carrying the vector [1, 0, 1]. -/
def entA2 : Entity :=
  ((update entA 1 [1, 0, 1]).getD (Entity.base 0 3, [])).1

/-- Statement of the Bellman-Ford relaxation behavior of one Entity.update
call: the call succeeds, the identity, size and neighbor fields and the
table lengths are unchanged, and for every destination d below
number_of_entities the entry is set to candidate = costs[d] + vector[src]
with next_hop[d] set to src exactly when candidate < vector[d], both being
left unchanged otherwise; the candidate always uses the cost to the sender
as it was at the start of the call. -/
def RelaxSpec (e : Entity) (src : Nat) (costs : List Int) : Prop :=
  ∃ e2 ps, update e src costs = some (e2, ps) ∧
    e2.index = e.index ∧ e2.number_of_entities = e.number_of_entities ∧
    e2.neighbors = e.neighbors ∧
    e2.vector.length = e.vector.length ∧
    e2.next_hop.length = e.next_hop.length ∧
    ∀ d, d < e.number_of_entities →
      (costs.getD d 0 + e.vector.getD src 0 < e.vector.getD d 0 →
        e2.vector.getD d 0 = costs.getD d 0 + e.vector.getD src 0 ∧
        e2.next_hop.getD d 0 = src) ∧
      (¬ costs.getD d 0 + e.vector.getD src 0 < e.vector.getD d 0 →
        e2.vector.getD d 0 = e.vector.getD d 0 ∧
        e2.next_hop.getD d 0 = e.next_hop.getD d 0)

/-- Claim C1: for every initialized node and every received envelope whose
vector has length N and whose sender is a neighbor, update performs
Bellman-Ford relaxation: for each destination d in [0, N) it computes
candidate = envelope.vector[d] + the cost of the node to the sender as it was at
the start of the call, and exactly when candidate < vector[d] it sets
vector[d] = candidate and simultaneously next_hop[d] = sender; entries with
no strict improvement are left unchanged in both vector and next_hop. -/
theorem update_is_bellman_ford_relaxation (e : Entity) (src : Nat)
    (costs : List Int)
    (hv : e.vector.length = e.number_of_entities)
    (hn : e.next_hop.length = e.number_of_entities)
    (hc : costs.length = e.number_of_entities)
    (hs : src ∈ e.neighbors)
    (hnb : ∀ m ∈ e.neighbors, m < e.number_of_entities) :
    RelaxSpec e src costs := by
  obtain ⟨⟨e2, ps⟩, hup⟩ :=
    update_isSome e src costs hv hn (le_of_eq hc.symm) (hnb src hs)
  obtain ⟨_, hidx, hnum, hnbs, hvl, hnl, _, hpoint, _, _⟩ := update_some_spec hup
  refine ⟨e2, ps, hup, hidx, hnum, hnbs, hvl, hnl, ?_⟩
  intro d hd
  obtain ⟨_, _, hbr⟩ := hpoint d hd
  rcases hbr with ⟨hlt, h1, h2⟩ | ⟨hlt, h1, h2⟩
  · exact ⟨fun _ => ⟨h1, h2⟩, fun hc2 => absurd hlt hc2⟩
  · exact ⟨fun hc2 => absurd hc2 hlt, fun _ => ⟨h1, h2⟩⟩

/-- Witness for claim C1 on the three-node line: entA (vector [0, 1, 999])
receives [1, 0, 1] from its neighbor 1. -/
theorem update_is_bellman_ford_relaxation_witness :
    (1 ∈ entA.neighbors) ∧ RelaxSpec entA 1 [1, 0, 1] :=
  ⟨by decide, update_is_bellman_ford_relaxation entA 1 [1, 0, 1]
    (by decide) (by decide) (by decide) (by decide) (by decide)⟩

/-- Statement of the broadcast-on-improvement behavior of one Entity.update
call: the call succeeds; the result is nonempty exactly when some entry
strictly improved; on improvement it is one packet per neighbor carrying
the entire updated vector; with no improvement the state is untouched and
the result empty; and re-delivering the same envelope (with nonnegative
costs) right after it was absorbed changes nothing and produces nothing. -/
def BroadcastSpec (e : Entity) (src : Nat) (costs : List Int) : Prop :=
  ∃ e2 ps, update e src costs = some (e2, ps) ∧
    (ps ≠ [] ↔ ∃ d, d < e.number_of_entities ∧
      costs.getD d 0 + e.vector.getD src 0 < e.vector.getD d 0) ∧
    ((∃ d, d < e.number_of_entities ∧
        costs.getD d 0 + e.vector.getD src 0 < e.vector.getD d 0) →
      ps = e.neighbors.map (fun nb => Packet.mk nb e.index e2.vector)) ∧
    (¬ (∃ d, d < e.number_of_entities ∧
        costs.getD d 0 + e.vector.getD src 0 < e.vector.getD d 0) →
      e2 = e ∧ ps = []) ∧
    ((∀ c ∈ costs, 0 ≤ c) → update e2 src costs = some (e2, []))

/-- Claim C2: for every initialized node, update returns a nonempty result
if and only if at least one vector entry strictly improved, in which case it
returns exactly one envelope per current neighbor, each carrying the
entire updated vector; if no entry improved it returns an empty result and
mutates neither vector nor next_hop, so re-delivering an already-absorbed
(non-improving) envelope is idempotent: no state change and no output. -/
theorem update_broadcast_iff_improvement (e : Entity) (src : Nat)
    (costs : List Int)
    (hv : e.vector.length = e.number_of_entities)
    (hn : e.next_hop.length = e.number_of_entities)
    (hc : costs.length = e.number_of_entities)
    (hs : src ∈ e.neighbors)
    (hnb : ∀ m ∈ e.neighbors, m < e.number_of_entities) :
    BroadcastSpec e src costs := by
  obtain ⟨⟨e2, ps⟩, hup⟩ :=
    update_isSome e src costs hv hn (le_of_eq hc.symm) (hnb src hs)
  obtain ⟨hsrc, hidx, hnum, hnbs, hvl, hnl, _, hpoint, himp_ps, hnimp⟩ :=
    update_some_spec hup
  refine ⟨e2, ps, hup, ⟨?_, ?_⟩, himp_ps, hnimp, ?_⟩
  · intro hne
    by_contra hni
    exact hne (hnimp hni).2
  · intro hex
    rw [himp_ps hex]
    intro hmap_nil
    rw [List.map_eq_nil] at hmap_nil
    rw [hmap_nil] at hs
    exact List.not_mem_nil src hs
  · intro hnn
    have hvl2 : e2.vector.length = e2.number_of_entities := by
      rw [hvl, hnum, hv]
    have hnl2 : e2.next_hop.length = e2.number_of_entities := by
      rw [hnl, hnum, hn]
    have hsrcN : src < e.number_of_entities := hnb src hs
    obtain ⟨⟨e3, ps3⟩, hup2⟩ := update_isSome e2 src costs hvl2 hnl2
      (by rw [hnum]; omega) (by rw [hnum]; exact hsrcN)
    obtain ⟨_, _, _, _, _, _, _, _, _, hnimp2⟩ := update_some_spec hup2
    have hvecsrc : e2.vector.getD src 0 = e.vector.getD src 0 := by
      obtain ⟨hdc, hdv, hbr⟩ := hpoint src hsrcN
      rcases hbr with ⟨hlt, _, _⟩ | ⟨_, heq, _⟩
      · exfalso
        have : 0 ≤ costs.getD src 0 := hnn _ (getD_mem hdc 0)
        omega
      · exact heq
    have hnoimp : ¬ ∃ d, d < e2.number_of_entities ∧
        costs.getD d 0 + e2.vector.getD src 0 < e2.vector.getD d 0 := by
      rintro ⟨d, hd, hlt⟩
      rw [hnum] at hd
      rw [hvecsrc] at hlt
      obtain ⟨hdc, hdv, hbr⟩ := hpoint d hd
      rcases hbr with ⟨hlt1, heq, _⟩ | ⟨hlt1, heq, _⟩
      · rw [heq] at hlt
        omega
      · rw [heq] at hlt
        exact hlt1 hlt
    obtain ⟨he32, hps3⟩ := hnimp2 hnoimp
    rw [hup2, he32, hps3]

/-- Witness for claim C2 on the three-node line: entA receives [1, 0, 1]
from its neighbor 1, which improves its entry for destination 2. -/
theorem update_broadcast_iff_improvement_witness :
    (1 ∈ entA.neighbors) ∧ BroadcastSpec entA 1 [1, 0, 1] :=
  ⟨by decide, update_broadcast_iff_improvement entA 1 [1, 0, 1]
    (by decide) (by decide) (by decide) (by decide) (by decide)⟩

/-- Claim C3: for every node and every destination d, across any sequence
of update calls with nonnegative envelope costs, vector[d] is
non-increasing: each call leaves every entry of vector either strictly
smaller or equal to its value before the call. -/
theorem vector_entries_nonincreasing (pkts : List (Nat × List Int))
    (e e2 : Entity) (h : runUpdates e pkts = some e2)
    (hnn : ∀ p ∈ pkts, ∀ c ∈ p.2, 0 ≤ c) :
    ∀ d, e2.vector.getD d 0 ≤ e.vector.getD d 0 :=
  fun d => runUpdates_mono pkts e e2 h d

/-- Witness for claim C3: after entA absorbs one packet from neighbor 1 its
entry for destination 2 has dropped from 999 to 2, not increased. -/
theorem vector_entries_nonincreasing_witness :
    entA2.vector.getD 2 0 ≤ entA.vector.getD 2 0 :=
  vector_entries_nonincreasing [(1, [1, 0, 1])] entA entA2
    (by decide) (by decide) 2

/-- Claim C4: for every node, vector[identity] is 0 at all times after
initialization: the initialization call establishes it (the listed one-hop
links exclude the node itself), and every update call with envelopes
carrying nonnegative costs preserves it. -/
theorem self_cost_invariant_zero (idx n : Nat) (ncosts : List (Nat × Int))
    (e0 : Entity) (ps0 : List Packet) (pkts : List (Nat × List Int))
    (e2 : Entity)
    (hinit : initCosts (Entity.base idx n) ncosts = some (e0, ps0))
    (hrun : runUpdates e0 pkts = some e2)
    (hcost : ∀ p ∈ ncosts, 0 ≤ p.2)
    (hself : idx ∉ ncosts.map (fun x => x.1))
    (hnn : ∀ p ∈ pkts, ∀ c ∈ p.2, 0 ≤ c) :
    e0.vector.getD idx 0 = 0 ∧ e2.vector.getD idx 0 = 0 := by
  obtain ⟨_, _, _, _, _, _, hmem, _, hvidx, _, _, _, _⟩ := initCosts_spec hinit
  have h0 : e0.vector.getD idx 0 = 0 := getD_of_get? 0 (hvidx hself)
  have hnonneg0 : ∀ x ∈ e0.vector, 0 ≤ x := by
    intro x hx
    rcases hmem x hx with h5 | h5 | ⟨p, hp, h5⟩
    · rw [h5]; omega
    · rw [h5]
    · rw [h5]; exact hcost p hp
  have hinv := @runUpdates_pres
    (fun ex => (∀ x ∈ ex.vector, 0 ≤ x) ∧ ex.vector.getD idx 0 = 0)
    (fun p => ∀ c ∈ p.2, 0 ≤ c)
    (fun ex src costs ey ps hu hcn hP =>
      ⟨update_nonneg hu hcn hP.1, update_self_zero hu hcn hP.1 idx hP.2⟩)
    pkts e0 e2 hrun hnn ⟨hnonneg0, h0⟩
  exact ⟨h0, hinv.2⟩

/-- Witness for claim C4: entA keeps its own entry at 0 after
initialization and after absorbing a packet from its neighbor. -/
theorem self_cost_invariant_zero_witness :
    entA.vector.getD 0 0 = 0 ∧ entA2.vector.getD 0 0 = 0 :=
  self_cost_invariant_zero 0 3 [(1, 1)] entA [Packet.mk 1 0 [0, 1, 999]]
    [(1, [1, 0, 1])] entA2 (by decide) (by decide) (by decide) (by decide)
    (by decide)

/-- Statement of what the initialization call establishes for a node of
index idx among n entities given the listed one-hop links: the neighbor
list, the initial vector (0 at idx, the link cost at each listed neighbor,
999 elsewhere), the initial next-hop table at idx and at each neighbor, and
one packet per neighbor carrying the full initial vector of the node. -/
def InitSpec (idx n : Nat) (ncosts : List (Nat × Int)) : Prop :=
  ∃ e0 ps, initCosts (Entity.base idx n) ncosts = some (e0, ps) ∧
    e0.index = idx ∧ e0.number_of_entities = n ∧
    e0.neighbors = ncosts.map (fun x => x.1) ∧
    e0.vector.length = n ∧ e0.next_hop.length = n ∧
    e0.vector.getD idx 0 = 0 ∧
    (∀ p ∈ ncosts, e0.vector.getD p.1 0 = p.2) ∧
    (∀ d, d < n → d ≠ idx → d ∉ ncosts.map (fun x => x.1) →
      e0.vector.getD d 0 = 999) ∧
    e0.next_hop.getD idx 0 = idx ∧
    (∀ p ∈ ncosts, e0.next_hop.getD p.1 0 = p.1) ∧
    ps = (ncosts.map (fun x => x.1)).map (fun nb => Packet.mk nb idx e0.vector)

/-- Claim C5: for every node constructed with (identity, N) and every
neighbor-cost list with nonnegative costs and no duplicate identities (the
listed one-hop links lying in range and excluding the node itself), the
initialization call sets vector[d] = 999 for every d, then
vector[identity] = 0, then vector[neighbor] = cost for each listed link;
sets next_hop[identity] = identity and next_hop[neighbor] = neighbor; and
returns exactly one envelope per neighbor, each carrying the current
full vector with the node as sender. -/
theorem init_costs_establishes_tables (idx n : Nat)
    (ncosts : List (Nat × Int))
    (hidx : idx < n) (hin : ∀ p ∈ ncosts, p.1 < n)
    (hnd : (ncosts.map (fun x => x.1)).Nodup)
    (hself : idx ∉ ncosts.map (fun x => x.1))
    (hcost : ∀ p ∈ ncosts, 0 ≤ p.2) :
    InitSpec idx n ncosts := by
  obtain ⟨⟨e0, ps⟩, hinit⟩ := initCosts_isSome (Entity.base idx n) ncosts hidx hin
  obtain ⟨hi, hN, hnb, hvl, hnl, _, _, hunt, hvidx, hvnd, hnhidx, hnhnb, hps⟩ :=
    initCosts_spec hinit
  refine ⟨e0, ps, hinit, hi, hN, hnb, hvl, hnl,
    getD_of_get? 0 (hvidx hself),
    fun p hp => getD_of_get? 0 (hvnd hnd p hp),
    fun d hd hdi hdn => getD_of_get? 0 (hunt d hd hdi hdn).1,
    getD_of_get? 0 hnhidx,
    fun p hp => getD_of_get? 0 (hnhnb p.1 (List.mem_map.2 ⟨p, hp, rfl⟩)),
    hps⟩

/-- Witness for claim C5: the middle node of the three-node line,
initialized with links to 0 and 2 of cost 1 each. -/
theorem init_costs_establishes_tables_witness :
    (1 < 3) ∧ InitSpec 1 3 [(0, 1), (2, 1)] :=
  ⟨by decide, init_costs_establishes_tables 1 3 [(0, 1), (2, 1)]
    (by decide) (by decide) (by decide) (by decide) (by decide)⟩

/-- Claim C6: every envelope returned by the initialization call or by
update carries its own snapshot of the vector of the node: after the call
returns, subsequent update calls on the node do not alter the vector
carried by any previously returned, still-in-flight envelope.  Here, given
an initialization producing ps0 and two successive update calls, the first
producing ps1, the packets of ps0 still carry the vector the node had when
they were emitted, and likewise for ps1, regardless of the later calls. -/
theorem envelopes_are_snapshots (e : Entity) (ncosts : List (Nat × Int))
    (e0 e1 e2 : Entity) (ps0 ps1 ps2 : List Packet)
    (src src2 : Nat) (costs costs2 : List Int)
    (hinit : initCosts e ncosts = some (e0, ps0))
    (h1 : update e0 src costs = some (e1, ps1))
    (h2 : update e1 src2 costs2 = some (e2, ps2)) :
    (∀ p ∈ ps0, p.costs = e0.vector) ∧ (∀ p ∈ ps1, p.costs = e1.vector) := by
  constructor
  · obtain ⟨_, _, _, _, _, _, _, _, _, _, _, _, hps⟩ := initCosts_spec hinit
    intro p hp
    rw [hps] at hp
    obtain ⟨nb, _, he⟩ := List.mem_map.1 hp
    rw [← he]
  · obtain ⟨cts, vec, nh, upd, _, _, he1, hps⟩ := update_eq h1
    intro p hp
    rw [hps] at hp
    cases upd with
    | false =>
      rw [if_neg (by simp)] at hp
      exact absurd hp (List.not_mem_nil p)
    | true =>
      rw [if_pos rfl] at hp
      obtain ⟨nb, _, he⟩ := List.mem_map.1 hp
      rw [← he, he1]

/-- Witness for claim C6: entA emits a packet at initialization and one
after its first update; both still carry the vector snapshots from their
emission times even after a further update call. -/
theorem envelopes_are_snapshots_witness :
    (∀ p ∈ [Packet.mk 1 0 [0, 1, 999]], p.costs = entA.vector) ∧
    (∀ p ∈ [Packet.mk 1 0 [0, 1, 2]], p.costs = entA2.vector) :=
  envelopes_are_snapshots (Entity.base 0 3) [(1, 1)] entA entA2
    (Entity.mk 0 3 [1] [0, 1, 1] [0, 1, 1])
    [Packet.mk 1 0 [0, 1, 999]] [Packet.mk 1 0 [0, 1, 2]]
    [Packet.mk 1 0 [0, 1, 1]] 1 1 [1, 0, 1] [0, 0, 0]
    (by decide) (by decide) (by decide)

/-- Claim C7 counterexample: the candidate sums computed by update are not
capped at INFINITY = 999.  When entTwo (vector [0, 5], cost 5 to its
neighbor 1) receives the vector [999, 0] from that neighbor, the candidate
for destination 0 is 999 + 5 = 1004, which exceeds 999. -/
theorem candidate_sum_exceeds_infinity :
    new_info [999, 0] (entTwo.vector.getD 1 0) = [1004, 5] ∧
    ¬ (new_info [999, 0] (entTwo.vector.getD 1 0)).getD 0 0 ≤ 999 := by
  decide

/-- Statement of the amended arithmetic behavior of update: the candidate
actually stored for an improving destination is the exact, unguarded sum of
the received cost and the cost to the sender, and nevertheless every vector
entry bounded by 999 beforehand stays bounded by 999, because a candidate
is only stored when strictly below the existing entry. -/
def UncappedSumSpec (e : Entity) (src : Nat) (costs : List Int)
    (e2 : Entity) : Prop :=
  (∀ d, d < e.number_of_entities →
    costs.getD d 0 + e.vector.getD src 0 < e.vector.getD d 0 →
      e2.vector.getD d 0 = costs.getD d 0 + e.vector.getD src 0) ∧
  ((∀ x ∈ e.vector, x ≤ 999) → ∀ x ∈ e2.vector, x ≤ 999)

/-- Claim C7, amended: the addition forming each candidate in update is not
guarded at all: the candidate is exactly envelope.vector[d] + vector[sender]
and can exceed INFINITY = 999 (there is no wraparound since Python integers
are unbounded); a candidate is stored only when strictly smaller than the
current entry, so entries at most 999 stay at most 999 even though the
intermediate sums are uncapped. -/
theorem candidate_sum_uncapped_but_entries_bounded (e : Entity) (src : Nat)
    (costs : List Int) (e2 : Entity) (ps : List Packet)
    (h : update e src costs = some (e2, ps)) :
    UncappedSumSpec e src costs e2 := by
  constructor
  · intro d hd hlt
    obtain ⟨_, _, _, _, _, _, _, hpoint, _, _⟩ := update_some_spec h
    obtain ⟨_, _, hbr⟩ := hpoint d hd
    rcases hbr with ⟨_, heq, _⟩ | ⟨hnlt, _, _⟩
    · exact heq
    · exact absurd hlt hnlt
  · exact update_le_999 h

/-- Witness for the amended claim C7: entTwo receiving [999, 0] from its
neighbor stores nothing (the oversized candidate 1004 is discarded) and its
entries stay at most 999. -/
theorem candidate_sum_uncapped_but_entries_bounded_witness :
    UncappedSumSpec entTwo 1 [999, 0] entTwo :=
  candidate_sum_uncapped_but_entries_bounded entTwo 1 [999, 0] entTwo []
    (by decide)

/-- Claim C8 counterexample: entTwo is an initialized node with N = 2; the
destination -1 lies outside [0, 2), yet forward_next_hop does not fail: by
Python negative-index semantics it silently returns
next_hop[-1] = next_hop[1] = 1, a value indistinguishable from a genuine
next hop. -/
theorem negative_destination_returns_value :
    forward_next_hop entTwo (-1) = some 1 := by decide

/-- Claim C8, amended: forward_next_hop follows Python list-subscript
semantics on its bare next_hop access: a destination at or above N and a
destination below -N raise IndexError (modelled as none), but a negative
destination in [-N, -1] does not fail; it silently returns
next_hop[N + destination]. -/
theorem forward_next_hop_python_indexing (e : Entity) (d : Int)
    (hlen : e.next_hop.length = e.number_of_entities) :
    ((e.number_of_entities : Int) ≤ d → forward_next_hop e d = none) ∧
    (d + e.number_of_entities < 0 → forward_next_hop e d = none) ∧
    (d < 0 → 0 ≤ d + e.number_of_entities →
      forward_next_hop e d =
        e.next_hop.get? (d + e.number_of_entities).toNat) := by
  refine ⟨?_, ?_, ?_⟩
  · intro hd
    rw [forward_next_hop, pyGet, if_pos (show (0 : Int) ≤ d by omega)]
    apply List.get?_len_le
    rw [hlen]
    omega
  · intro hd
    rw [forward_next_hop, pyGet, hlen, if_neg (by omega), if_neg (by omega)]
  · intro hd1 hd2
    rw [forward_next_hop, pyGet, hlen, if_neg (by omega), if_pos (by omega)]

/-- Witness for the amended claim C8: entTwo with destination -1 silently
reads next_hop[2 + (-1)]. -/
theorem forward_next_hop_python_indexing_witness :
    forward_next_hop entTwo (-1) =
      entTwo.next_hop.get? ((-1 : Int) + entTwo.number_of_entities).toNat :=
  (forward_next_hop_python_indexing entTwo (-1) (by decide)).2.2
    (by decide) (by decide)

/-- Claim C9: immediately after the initialization call, for every
destination d that is neither the identity of the node itself nor a listed
neighbor, next_hop[d] is 0 (the index of entity 0, not a sentinel), and
consequently forward_next_hop on such a never-improved destination returns
0, indistinguishable from a genuine recorded route through entity 0. -/
theorem default_next_hop_is_zero (idx n : Nat) (ncosts : List (Nat × Int))
    (e0 : Entity) (ps0 : List Packet) (d : Nat)
    (hinit : initCosts (Entity.base idx n) ncosts = some (e0, ps0))
    (hd : d < n) (hdi : d ≠ idx) (hdn : d ∉ ncosts.map (fun x => x.1)) :
    e0.next_hop.get? d = some 0 ∧ forward_next_hop e0 (d : Int) = some 0 := by
  obtain ⟨_, _, _, _, _, _, _, hunt, _, _, _, _, _⟩ := initCosts_spec hinit
  have hq := (hunt d hd hdi hdn).2
  refine ⟨hq, ?_⟩
  rw [forward_next_hop, pyGet, if_pos (show (0 : Int) ≤ (d : Int) by omega),
    Int.toNat_natCast]
  exact hq

/-- Witness for claim C9: entA, whose only neighbor is 1, reports next hop
0 for the never-improved destination 2. -/
theorem default_next_hop_is_zero_witness :
    entA.next_hop.get? 2 = some 0 ∧ forward_next_hop entA 2 = some 0 :=
  default_next_hop_is_zero 0 3 [(1, 1)] entA [Packet.mk 1 0 [0, 1, 999]] 2
    (by decide) (by decide) (by decide) (by decide)

/-- Claim C10: every entry of the vector of a node is at most 999 at all times
after initialization: the initialization call stores only 999, 0 or a link
cost assumed at most 999, and update stores a candidate only when it is
strictly less than an existing entry, so no stored cost ever exceeds 999
even though the intermediate candidate sums are uncapped. -/
theorem vector_entries_at_most_999 (idx n : Nat) (ncosts : List (Nat × Int))
    (e0 : Entity) (ps0 : List Packet) (pkts : List (Nat × List Int))
    (e2 : Entity)
    (hinit : initCosts (Entity.base idx n) ncosts = some (e0, ps0))
    (hrun : runUpdates e0 pkts = some e2)
    (hcost : ∀ p ∈ ncosts, p.2 ≤ 999) :
    (∀ x ∈ e0.vector, x ≤ 999) ∧ (∀ x ∈ e2.vector, x ≤ 999) := by
  obtain ⟨_, _, _, _, _, _, hmem, _, _, _, _, _, _⟩ := initCosts_spec hinit
  have h0 : ∀ x ∈ e0.vector, x ≤ 999 := by
    intro x hx
    rcases hmem x hx with h5 | h5 | ⟨p, hp, h5⟩
    · rw [h5]
    · rw [h5]; omega
    · rw [h5]; exact hcost p hp
  exact ⟨h0, @runUpdates_pres (fun ex => ∀ x ∈ ex.vector, x ≤ 999)
    (fun _ => True)
    (fun ex src costs ey ps hu _ hP => update_le_999 hu hP)
    pkts e0 e2 hrun (fun _ _ => trivial) h0⟩

/-- Witness for claim C10: all of the entries of entA stay at most 999 after
initialization and after one absorbed packet. -/
theorem vector_entries_at_most_999_witness :
    (∀ x ∈ entA.vector, x ≤ 999) ∧ (∀ x ∈ entA2.vector, x ≤ 999) :=
  vector_entries_at_most_999 0 3 [(1, 1)] entA [Packet.mk 1 0 [0, 1, 999]]
    [(1, [1, 0, 1])] entA2 (by decide) (by decide) (by decide)

end DistVec
